import Mathlib

/-!
Shallow embedding of the Json library (Json.cpp / Json.hpp): the tagged
value model with its per-node encoding cache, the recursive-descent codec
(`FromEncoding` / `ToEncoding`), the number grammars, the string
escape/unescape machines, structural equality, indexing and the mutators.

Unicode code points are modelled as Lean `Char` (a Unicode scalar value);
both `std::vector<Utf8::UnicodeCodePoint>` and `std::string` are modelled
through their decoded code-point sequences (`List Char` / `String`), i.e.
the external UTF-8 codec collaborator is taken to be a bijection between
byte strings and code-point sequences, as its contract states.
-/

namespace JsonSpec

/-- The JSON whitespace set (`WHITESPACE_CHARACTERS` in Json.cpp):
space, tab, CR, LF. -/
def isJsonWhitespace (c : Char) : Bool :=
  c == ' ' || c == '\t' || c == '\r' || c == '\n'

/-- `POPULAR_CHARACTERS_ESCAPED` in Json.cpp: a map keyed by the source
character, giving the character written after the backslash. -/
def popularCharactersEscaped (c : Char) : Option Char :=
  if c = '\x22' then some '\x22'
  else if c = '\x5C' then some '\x5C'
  else if c = '\x08' then some 'b'
  else if c = '\x0C' then some 'f'
  else if c = '\x0A' then some 'n'
  else if c = '\x0D' then some 'r'
  else if c = '\x09' then some 't'
  else none

/-- `FindFirstNotOf` (Json.cpp): its loop advances `offset` while the
code point at `offset` (scanning forward) or at `size - offset - 1`
(scanning backward) is in the whitespace set — i.e. `offset` ends up as
the length of the maximal whitespace prefix of the list (forward) or of
its reverse (backward), capped at the length; then the offset of the
first code point not in the set is returned (`cps.length` when all code
points are in it). -/
def findFirstNotOf (cps : List Char) (fwd : Bool) : Nat :=
  let offset :=
    if fwd then (cps.takeWhile isJsonWhitespace).length
    else (cps.reverse.takeWhile isJsonWhitespace).length
  if offset < cps.length then
    if fwd then offset else cps.length - offset - 1
  else offset

/-- The whitespace trimming performed at the top of `Json::FromEncoding`:
the sub-range from the first to the last non-whitespace code point. -/
def trimCps (cps : List Char) : List Char :=
  let first := findFirstNotOf cps true
  let last := findFirstNotOf cps false
  (cps.drop first).take (last + 1 - first)

/-- `CodePointToFourHexDigits` (Json.cpp). -/
def codePointToFourHexDigits (cp : Nat) : String :=
  String.mk ((List.range 4).map (fun i =>
    let nibble := (cp >>> (4 * (3 - i))) &&& 0x0F
    if nibble < 10 then Char.ofNat (nibble + '0'.toNat)
    else Char.ofNat (nibble - 10 + 'A'.toNat)))

/-- 32-bit two's-complement wrap-around, modelling arithmetic on the C
`int` accumulator in `ParseToInteger`. -/
def wrap32 (n : Int) : Int := (n + 2 ^ 31) % 2 ^ 32 - 2 ^ 31

/-- Numeric value of a decimal digit character. -/
def digitVal (c : Char) : Int := (c.toNat : Int) - ('0'.toNat : Int)

/-- Is `c` a decimal digit (`'0'` to `'9'`)? -/
def isDigitCp (c : Char) : Bool := '0' ≤ c && c ≤ '9'

/-- State 3 of `Json::Impl::ParseToInteger`: accumulate further digits into
the (wrapping) `int` accumulator, rejecting on the truncated-division
round-trip check `value / 10 != previousValue`, and rejecting any
non-digit. `none` models the early `return` that leaves the value Invalid. -/
def parseIntLoop : List Char → Int → Option Int
  | [], v => some v
  | c :: rest, v =>
    if isDigitCp c then
      let previousValue := v
      let v' := wrap32 (v * 10 + digitVal c)
      if v'.tdiv 10 ≠ previousValue then none
      else parseIntLoop rest v'
    else none

/-- States 1-3 of `Json::Impl::ParseToInteger` (after the optional sign):
either the single digit `0` (state 2 rejects anything after the `0`) or
a `1`-`9` digit followed by more digits (state 3). -/
def parseToIntegerMagnitude : List Char → Option Int
  | [] => none
  | c :: rest =>
    if c = '0' then (if rest.isEmpty then some 0 else none)
    else if '1' ≤ c && c ≤ '9' then parseIntLoop rest (digitVal c)
    else none

/-- `Json::Impl::ParseToInteger`: state 0 consumes an optional leading
`-` (setting `negative`), the remaining states accumulate the
magnitude, and the accepted value is
`value * (negative ? -1 : 1)`. `some v` models setting
`type = Integer, integerValue = v`; `none` models leaving the value
Invalid. -/
def parseToInteger (cps : List Char) : Option Int :=
  if cps.head? = some '-' then
    (parseToIntegerMagnitude cps.tail).map (fun v => v * (-1))
  else (parseToIntegerMagnitude cps).map (fun v => v * 1)

/-- Truncation of a rational toward zero, modelling the C cast
`(intmax_t)` applied to a `double`. -/
def truncQ (q : ℚ) : Int := q.num.tdiv q.den

/-- States 6-7 of `Json::Impl::ParseFloatingPoint`: the exponent digits,
with the truncated-division round-trip check after each digit. The
exponent accumulator (a `double` in the source, always integer-valued
here) is modelled as a rational. Returns the accumulated exponent, or
`none` for the early `return`s. State 7 accepts the end of input even
when no exponent digit was consumed, exactly as the source does. -/
def parseFloatExpLoop : List Char → ℚ → Option ℚ
  | [], e => some e
  | c :: rest, e =>
    if isDigitCp c then
      let oldExponent := truncQ e
      let e' := e * 10 + (digitVal c : ℚ)
      if (truncQ e').tdiv 10 ≠ oldExponent then none
      else parseFloatExpLoop rest e'
    else none

/-- State 6 of `ParseFloatingPoint`: an optional `-` or `+` before the
exponent digits; a non-sign character is not consumed. Returns
`(negativeExponent, accumulated exponent)`. -/
def parseFloatExp (l : List Char) : Option (Bool × ℚ) :=
  match l with
  | '-' :: rest => (parseFloatExpLoop rest 0).map (fun e => (true, e))
  | '+' :: rest => (parseFloatExpLoop rest 0).map (fun e => (false, e))
  | rest => (parseFloatExpLoop rest 0).map (fun e => (false, e))

/-- State 5 of `ParseFloatingPoint`: further fraction digits, or the
exponent marker. Returns `(fraction, fractionDigits, negativeExponent,
exponent)`. -/
def parseFloatFracLoop : List Char → ℚ → Nat → Option (ℚ × Bool × ℚ)
  | [], frac, _ => some (frac, false, 0)
  | c :: rest, frac, fractionDigits =>
    if isDigitCp c then
      let fd := fractionDigits + 1
      parseFloatFracLoop rest (frac + (digitVal c : ℚ) / 10 ^ fd) fd
    else if c = 'e' || c = 'E' then
      (parseFloatExp rest).map (fun (ne, e) => (frac, ne, e))
    else none

/-- State 4 of `ParseFloatingPoint`: the first fraction digit is
mandatory. -/
def parseFloatFrac (l : List Char) : Option (ℚ × Bool × ℚ) :=
  match l with
  | [] => none
  | c :: rest =>
    if isDigitCp c then
      parseFloatFracLoop rest ((digitVal c : ℚ) / 10 ^ (1 : Nat)) 1
    else none

/-- State 3 of `ParseFloatingPoint`: integer-part digits (with the
truncated-division overflow check on the `double` magnitude), a `.`
leading to the fraction states, or the exponent marker. Returns
`(magnitude, fraction, negativeExponent, exponent)`. -/
def parseFloatMagLoop : List Char → ℚ → Option (ℚ × ℚ × Bool × ℚ)
  | [], mag => some (mag, 0, false, 0)
  | c :: rest, mag =>
    if isDigitCp c then
      let oldMagnitude := truncQ mag
      let mag' := mag * 10 + (digitVal c : ℚ)
      if (truncQ mag').tdiv 10 ≠ oldMagnitude then none
      else parseFloatMagLoop rest mag'
    else if c = '.' then
      (parseFloatFrac rest).map (fun (f, ne, e) => (mag, f, ne, e))
    else if c = 'e' || c = 'E' then
      (parseFloatExp rest).map (fun (ne, e) => (mag, 0, ne, e))
    else none

/-- State 2 of `ParseFloatingPoint`: after a leading `0`, only `.` or the
exponent marker may follow. -/
def parseFloatAfterZero (l : List Char) : Option (ℚ × ℚ × Bool × ℚ) :=
  match l with
  | [] => some (0, 0, false, 0)
  | c :: rest =>
    if c = '.' then (parseFloatFrac rest).map (fun (f, ne, e) => (0, f, ne, e))
    else if c = 'e' || c = 'E' then
      (parseFloatExp rest).map (fun (ne, e) => ((0 : ℚ), (0 : ℚ), ne, e))
    else none

/-- `Json::Impl::ParseFloatingPoint`, with the `double` arithmetic
modelled as exact rational arithmetic. `some q` models setting
`type = Float, floatValue = q`; `none` models leaving the value Invalid.
Note the final value multiplies by `-1` when the EXPONENT sign is
negative (`negativeExponent`), exactly as the source does; the
`negativeMagnitude` flag recorded for a leading `-` is never consulted
by the source. -/
def parseFloatingPoint (cps : List Char) : Option ℚ :=
  let cps1 :=
    match cps with
    | '-' :: rest => rest
    | _ => cps
  let core : Option (ℚ × ℚ × Bool × ℚ) :=
    match cps1 with
    | [] => none
    | c :: rest =>
      if c = '0' then parseFloatAfterZero rest
      else if '1' ≤ c && c ≤ '9' then parseFloatMagLoop rest (digitVal c : ℚ)
      else none
  core.map (fun (magnitude, fraction, negativeExponent, exponent) =>
    let expNat := (truncQ exponent).toNat
    (magnitude + fraction)
      * (if negativeExponent then 1 / 10 ^ expNat else 10 ^ expNat)
      * (if negativeExponent then -1 else 1))

/-- `Json::JsonEncodingOptions` (Json.hpp). -/
structure JsonEncodingOptions where
  escapeNonAscii : Bool
  reencode : Bool
  pretty : Bool
  spacesIndentationLevels : Nat
  wrapthreshold : Nat
  numIndentationLevels : Nat

/-- The default-constructed `JsonEncodingOptions`: all flags off,
4 spaces per indentation level, wrap threshold 60, depth 0. -/
def defaultOptions : JsonEncodingOptions :=
  ⟨false, false, false, 4, 60, 0⟩

/-- `Escape` (Json.cpp): escape a string for a JSON quoted literal. -/
def escape (options : JsonEncodingOptions) (s : String) : String :=
  String.mk (s.data.foldl (fun output cp =>
    if cp = '\x22' || cp = '\x5C' || cp.toNat < 0x20 then
      output ++ '\\' ::
        (match popularCharactersEscaped cp with
         | none => 'u' :: (codePointToFourHexDigits cp.toNat).data
         | some e => [e])
    else if options.escapeNonAscii && cp.toNat > 0x7F then
      if cp.toNat > 0xFFFF then
        output ++ '\\' :: 'u' ::
          (codePointToFourHexDigits
            (0xD800 + (((cp.toNat - 0x10000) >>> 10) &&& 0x3FF))).data
          ++ '\\' :: 'u' ::
          (codePointToFourHexDigits (0xDC00 + ((cp.toNat - 0x10000) &&& 0x3FF))).data
      else output ++ '\\' :: 'u' :: (codePointToFourHexDigits cp.toNat).data
    else output ++ [cp]) [])

/-- Hex digit value for the `\uXXXX` states of `Unescape` (Json.cpp). -/
def hexDigitValue (c : Char) : Option Nat :=
  if '0' ≤ c && c ≤ '9' then some (c.toNat - '0'.toNat)
  else if 'A' ≤ c && c ≤ 'F' then some (c.toNat - 'A'.toNat + 10)
  else if 'a' ≤ c && c ≤ 'f' then some (c.toNat - 'a'.toNat + 10)
  else none

/-- The `Unescape` state machine of Json.cpp, one transition per decoded
code point. Loop variables map one-to-one to the source: `state`
(0 = copy-through, 1 = after backslash, 2-5 = hex digits of `\uXXXX`),
`cpFromHexDigits`, and `firstHalfOfSurrogatePair` (`0` is the "no
pending half" sentinel, as in the source). Note that in state 1 the
character after the backslash is looked up among the KEYS of
`POPULAR_CHARACTERS_ESCAPED` (the raw characters `0x22 0x5C 0x08 0x0C
0x0A 0x0D 0x09`) and the mapped escape LETTER is emitted, exactly as
the source does. `none` models `return false`. -/
def unescapeGo : List Char → Nat → Nat → Nat → List Char → Option (List Char)
  | [], state, _, _, out =>
    if state ≠ 1 ∧ (state < 2 ∨ state > 5) then some out else none
  | c :: rest, 0, cpFromHexDigits, firstHalf, out =>
    if c = '\x5C' then unescapeGo rest 1 cpFromHexDigits firstHalf out
    else if firstHalf = 0 then
      unescapeGo rest 0 cpFromHexDigits firstHalf (out ++ [c])
    else none
  | c :: rest, 1, _, firstHalf, out =>
    if c = 'u' then unescapeGo rest 2 0 firstHalf out
    else if firstHalf = 0 then
      match popularCharactersEscaped c with
      | none => none
      | some mapped => unescapeGo rest 0 0 firstHalf (out ++ [mapped])
    else none
  | c :: rest, state, cpFromHexDigits, firstHalf, out =>
    match hexDigitValue c with
    | none => none
    | some d =>
      let cp' := cpFromHexDigits * 16 + d
      if state + 1 = 6 then
        if 0xD800 ≤ cp' ∧ cp' ≤ 0xDFFF then
          if firstHalf = 0 then unescapeGo rest 0 cp' cp' out
          else
            unescapeGo rest 0 cp' 0 (out ++
              [Char.ofNat (((firstHalf - 0xD800) <<< 10) + (cp' - 0xDC00)
                + 0x10000)])
        else if firstHalf = 0 then
          unescapeGo rest 0 cp' firstHalf (out ++ [Char.ofNat cp'])
        else none
      else unescapeGo rest (state + 1) cp' firstHalf out

/-- `Unescape` (Json.cpp): `some` is the unescaped output, `none` models
`return false` (an invalid escape sequence). -/
def unescape (s : String) : Option String :=
  (unescapeGo s.data 0 0 0 []).map String.mk

/-- `Json::Type` (Json.hpp). -/
inductive JType : Type where
  | invalid
  | null
  | boolean
  | string
  | integer
  | float
  | array
  | object
deriving DecidableEq, Repr

/-- The `Json::Json` value: `Json::Impl`'s tag, payload and per-node
encoding cache (`impl_->encoding`). The `double` payload is modelled as
an exact rational; Array children and the key-sorted `std::map` of an
Object are lists (entries kept strictly sorted by key, the
representation invariant of `std::map`). -/
inductive Json : Type where
  | invalid (enc : String)
  | null (enc : String)
  | boolean (enc : String) (b : Bool)
  | str (enc : String) (s : String)
  | integer (enc : String) (n : Int)
  | float (enc : String) (q : ℚ)
  | arr (enc : String) (elems : List Json)
  | obj (enc : String) (entries : List (String × Json))

/-- `impl_->type`. -/
def Json.typeOf : Json → JType
  | .invalid _ => .invalid
  | .null _ => .null
  | .boolean _ _ => .boolean
  | .str _ _ => .string
  | .integer _ _ => .integer
  | .float _ _ => .float
  | .arr _ _ => .array
  | .obj _ _ => .object

/-- `impl_->encoding`, the per-node encoding cache. -/
def Json.encoding : Json → String
  | .invalid e | .null e | .boolean e _ | .str e _ | .integer e _
  | .float e _ | .arr e _ | .obj e _ => e

/-- `Json::operator int()`: the integer payload, a truncated float
payload, or `0`. -/
def Json.asInt : Json → Int
  | .integer _ n => n
  | .float _ q => truncQ q
  | _ => 0

/-- `Json::operator std::string()`: the string payload or `""`. -/
def Json.asString : Json → String
  | .str _ s => s
  | _ => ""

/-- `Json::GetSize`: element count for Array and Object, `0` otherwise. -/
def Json.getSize : Json → Nat
  | .arr _ elems => elems.length
  | .obj _ entries => entries.length
  | _ => 0

/-- The scanning loop of `Json::Impl::ParseValue`: every scanned code
point is appended to the accumulator; a code point equal to the top of
the expected-delimiter stack pops it (and leaves string mode); outside a
string, `"` pushes a closing `"` (entering string mode) and `[` pushes
`]` — the source pushes nothing for `{` — and the delimiter breaks the
scan when the stack is empty. Returns the accumulated code points and
the remaining stack. -/
def parseValueLoop (delimiter : Char) :
    List Char → List Char → Bool → List Char → List Char × List Char
  | [], stack, _, acc => (acc, stack)
  | c :: rest, stack, insideString, acc =>
    let acc' := acc ++ [c]
    if stack.head? = some c then
      parseValueLoop delimiter rest stack.tail false acc'
    else if !insideString then
      if c = '\x22' then parseValueLoop delimiter rest ('\x22' :: stack) true acc'
      else if c = '[' then
        parseValueLoop delimiter rest (']' :: stack) insideString acc'
      else if c = delimiter ∧ stack = [] then (acc', stack)
      else parseValueLoop delimiter rest stack insideString acc'
    else parseValueLoop delimiter rest stack insideString acc'

/-- `Json::Impl::ParseValue`: extract the encoding of the next value
from position `offset`, up to an unnested `delimiter`. The returned
offset is `none` for `std::string::npos` (empty input at `offset`);
when the scan ends with a non-empty delimiter stack the source returns
`{}` and LEAVES `offset` unchanged (`some offset` here); otherwise the
offset advances past the scanned code points and a trailing delimiter
is dropped from the returned piece. -/
def parseValue (codePoints : List Char) (offset : Nat) (delimiter : Char) :
    List Char × Option Nat :=
  let encodingCodePoints := codePoints.drop offset
  if encodingCodePoints = [] then ([], none)
  else
    let (encodedValueCodePoints, stack) :=
      parseValueLoop delimiter encodingCodePoints [] false []
    if stack = [] then
      let newOffset := offset + encodedValueCodePoints.length
      if encodedValueCodePoints.getLast? = some delimiter then
        (encodedValueCodePoints.dropLast, some newOffset)
      else (encodedValueCodePoints, some newOffset)
    else ([], some offset)

/-- Insertion into the key-sorted `std::map<std::string,...>` backing an
Object: `newObjectValue[key] = value` places the entry at its sorted
position, replacing an existing entry with the same key. -/
def mapInsert : List (String × Json) → String → Json → List (String × Json)
  | [], k, v => [(k, v)]
  | (k', v') :: rest, k, v =>
    if k < k' then (k, v) :: (k', v') :: rest
    else if k = k' then (k, v) :: rest
    else (k', v') :: mapInsert rest k v

/-- `std::map::find` on the Object entry list: the first (and, for a
well-formed map, only) entry with the given key. -/
def mapLookup : List (String × Json) → String → Option Json
  | [], _ => none
  | (k', v') :: rest, k => if k = k' then some v' else mapLookup rest k

/-- Outcome of `ParseAsArray` / `ParseAsObject`: `fail` models the early
`return`s that leave the value Invalid, `done` models reaching the end
of the member list and setting the Array/Object payload. `outOfFuel` is
the fuel-exhaustion marker of this embedding: the source loops are not
bounded, and `Json::FromEncoding` genuinely fails to terminate on some
inputs (see the C3 theorems). -/
inductive ParseOutcome (α : Type) : Type where
  | outOfFuel : ParseOutcome α
  | fail : ParseOutcome α
  | done (a : α) : ParseOutcome α

mutual

/-- `Json::FromEncoding` over decoded code points, with explicit fuel
(`none` = the computation has not finished within the given fuel). The
input is whitespace-trimmed (an all-whitespace input returns the
default, Invalid, value); the cache `impl_->encoding` of the result is
pre-populated with the trimmed text; then the first/last code points
select the Object / Array / String branch, the trimmed text is compared
with the literals `null` / `true` / `false`, and otherwise the presence
of any of `.eE` selects the float grammar over the integer grammar. -/
def fromEncoding : Nat → List Char → Option Json
  | 0, _ => none
  | fuel + 1, encodingFormatNotTrim =>
    let firstNonWhitespaceChar := findFirstNotOf encodingFormatNotTrim true
    if firstNonWhitespaceChar = encodingFormatNotTrim.length then
      some (.invalid "")
    else
      let encoding := trimCps encodingFormatNotTrim
      let encStr := String.mk encoding
      if encoding.head? = some '\x7b' ∧ encoding.getLast? = some '\x7d' then
        match parseAsObjectGo fuel ((encoding.drop 1).dropLast) 0 [] with
        | .outOfFuel => none
        | .fail => some (.invalid encStr)
        | .done entries => some (.obj encStr entries)
      else if encoding.head? = some '[' ∧ encoding.getLast? = some ']' then
        match parseAsArrayGo fuel ((encoding.drop 1).dropLast) 0 [] with
        | .outOfFuel => none
        | .fail => some (.invalid encStr)
        | .done elems => some (.arr encStr elems)
      else if encoding.head? = some '\x22' ∧ encoding.getLast? = some '\x22' then
        match unescape (String.mk ((encoding.drop 1).dropLast)) with
        | some output => some (.str encStr output)
        | none => some (.invalid encStr)
      else if encStr = "null" then some (.null encStr)
      else if encStr = "true" then some (.boolean encStr true)
      else if encStr = "false" then some (.boolean encStr false)
      else if encoding.any (fun c => c = '.' || c = 'e' || c = 'E') then
        match parseFloatingPoint encoding with
        | some q => some (.float encStr q)
        | none => some (.invalid encStr)
      else
        match parseToInteger encoding with
        | some n => some (.integer encStr n)
        | none => some (.invalid encStr)

/-- The `while (offset < codePoints.size())` loop of
`Json::Impl::ParseAsArray`: extract the next member with `ParseValue`
(delimiter `,`), bail out (leaving the value Invalid) when `offset`
became `npos`, decode the member with `FromEncoding` and append it.
Note that when `ParseValue` returns with `offset` UNCHANGED (an
unterminated member), the loop runs again from the same offset. -/
def parseAsArrayGo : Nat → List Char → Nat → List Json →
    ParseOutcome (List Json)
  | 0, _, _, _ => .outOfFuel
  | fuel + 1, codePoints, offset, newArrayValue =>
    if offset < codePoints.length then
      match parseValue codePoints offset ',' with
      | (_, none) => .fail
      | (encodedValue, some offset') =>
        match fromEncoding fuel encodedValue with
        | none => .outOfFuel
        | some value =>
          parseAsArrayGo fuel codePoints offset' (newArrayValue ++ [value])
    else .done newArrayValue

/-- The loop of `Json::Impl::ParseAsObject`: extract the next key with
`ParseValue` (delimiter `:`), require it to decode to a String (else
bail out leaving the value Invalid), extract the member value
(delimiter `,`), decode it and insert it into the key-sorted map. -/
def parseAsObjectGo : Nat → List Char → Nat → List (String × Json) →
    ParseOutcome (List (String × Json))
  | 0, _, _, _ => .outOfFuel
  | fuel + 1, codePoints, offset, newObjectValue =>
    if offset < codePoints.length then
      match parseValue codePoints offset ':' with
      | (_, none) => .fail
      | (encodedKey, some offset1) =>
        match fromEncoding fuel encodedKey with
        | none => .outOfFuel
        | some key =>
          if key.typeOf ≠ JType.string then .fail
          else
            match parseValue codePoints offset1 ',' with
            | (_, none) => .fail
            | (encodedValue, some offset2) =>
              match fromEncoding fuel encodedValue with
              | none => .outOfFuel
              | some value =>
                parseAsObjectGo fuel codePoints offset2
                  (mapInsert newObjectValue key.asString value)
    else .done newObjectValue

end

/-- Modelled from the spec: the external numeric-formatter collaborator
(`StringUtils::sprintf("%i", ...)`), "canonical integer-to-text
formatting" — decimal rendering of the integer. -/
def fmtInt (n : Int) : String := toString n

/-- Fractional decimal digits of a rational in `[0, 1)`, up to a digit
budget. -/
def fmtFloatFracDigits : Nat → ℚ → List Char
  | 0, _ => []
  | budget + 1, f =>
    if f = 0 then []
    else
      let f10 := f * 10
      let d := truncQ f10
      Char.ofNat (d.toNat + '0'.toNat) :: fmtFloatFracDigits budget (f10 - d)

/-- Modelled from the spec: the external numeric-formatter collaborator
(`StringUtils::sprintf("%lg", ...)`), "canonical double-to-text
formatting". Modelled as the exact decimal expansion of the rational
(all rationals produced by the float grammar have power-of-ten
denominators); the `%lg` 6-significant-digit rule is not reproduced. No
claim's theorem depends on the Float rendering. -/
def fmtFloat (q : ℚ) : String :=
  let sign := if q < 0 then "-" else ""
  let a := |q|
  let ip := (truncQ a).toNat
  let digits := fmtFloatFracDigits 40 (a - (ip : ℚ))
  sign ++ toString ip ++ (if digits.isEmpty then "" else "." ++ String.mk digits)

mutual

/-- `Json::ToEncoding`: returns the rendered text together with the
updated value, since the source caches computed encodings on the
(conceptually const) value through `impl_->encoding` — both on the node
itself and on its children. An Invalid value renders as a diagnostic
embedding the cached original text and returns early (no cache
change); otherwise a non-empty cache (unless `reencode` cleared it) is
returned as-is, and an empty cache is recomputed by case on the tag.
For Array and Object both the inline form and the multi-line wrapped
form are built, and the wrapped form is kept when `pretty` is set and
the inline form (plus this level's indentation) exceeds
`wrapthreshold`. The temporary `keyAsJson` of the Object case is a
fresh String value, whose encoding always computes to the quoted
escaped key. -/
def toEncoding (options : JsonEncodingOptions) (j : Json) : String × Json :=
  match j with
  | .invalid enc => ("(Invalid JSON: " ++ enc ++ ")", .invalid enc)
  | .null enc =>
    let enc1 := if options.reencode then "" else enc
    if enc1 ≠ "" then (enc1, .null enc)
    else ("null", .null "null")
  | .boolean enc b =>
    let enc1 := if options.reencode then "" else enc
    if enc1 ≠ "" then (enc1, .boolean enc b)
    else
      let e := if b then "true" else "false"
      (e, .boolean e b)
  | .str enc s =>
    let enc1 := if options.reencode then "" else enc
    if enc1 ≠ "" then (enc1, .str enc s)
    else
      let e := "\x22" ++ escape options s ++ "\x22"
      (e, .str e s)
  | .integer enc n =>
    let enc1 := if options.reencode then "" else enc
    if enc1 ≠ "" then (enc1, .integer enc n)
    else (fmtInt n, .integer (fmtInt n) n)
  | .float enc q =>
    let enc1 := if options.reencode then "" else enc
    if enc1 ≠ "" then (enc1, .float enc q)
    else (fmtFloat q, .float (fmtFloat q) q)
  | .arr enc elems =>
    let enc1 := if options.reencode then "" else enc
    if enc1 ≠ "" then (enc1, .arr enc elems)
    else
      let nestedOptions :=
        { options with numIndentationLevels := options.numIndentationLevels + 1 }
      let nestedIndentation := String.mk (List.replicate
        (nestedOptions.numIndentationLevels * nestedOptions.spacesIndentationLevels) ' ')
      let (encodedElems, elems') := encodeElems nestedOptions elems
      let inlineEncoding := "[" ++ String.intercalate
        (if nestedOptions.pretty then ", " else ",") encodedElems ++ "]"
      let indentation := String.mk (List.replicate
        (options.numIndentationLevels * options.spacesIndentationLevels) ' ')
      let wrappedEncoding := "[\r\n" ++ String.intercalate ",\r\n"
        (encodedElems.map (fun e => nestedIndentation ++ e))
        ++ "\r\n" ++ indentation ++ "]"
      let chosen :=
        if options.pretty ∧
            indentation.length + inlineEncoding.length > options.wrapthreshold
        then wrappedEncoding else inlineEncoding
      (chosen, .arr chosen elems')
  | .obj enc entries =>
    let enc1 := if options.reencode then "" else enc
    if enc1 ≠ "" then (enc1, .obj enc entries)
    else
      let nestedOptions :=
        { options with numIndentationLevels := options.numIndentationLevels + 1 }
      let nestedIndentation := String.mk (List.replicate
        (nestedOptions.numIndentationLevels * nestedOptions.spacesIndentationLevels) ' ')
      let (encodedEntries, entries') := encodeEntries nestedOptions entries
      let inlineEncoding := "\x7b" ++ String.intercalate
        (if nestedOptions.pretty then ", " else ",") encodedEntries ++ "\x7d"
      let indentation := String.mk (List.replicate
        (options.numIndentationLevels * options.spacesIndentationLevels) ' ')
      let wrappedEncoding := "\x7b\r\n" ++ String.intercalate ",\r\n"
        (encodedEntries.map (fun e => nestedIndentation ++ e))
        ++ "\r\n" ++ indentation ++ "\x7d"
      let chosen :=
        if options.pretty ∧
            indentation.length + inlineEncoding.length > options.wrapthreshold
        then wrappedEncoding else inlineEncoding
      (chosen, .obj chosen entries')

/-- The per-element encoding pass of the Array case of `ToEncoding`:
each child's rendered text, and the children with their updated
caches. -/
def encodeElems (options : JsonEncodingOptions) :
    List Json → List String × List Json
  | [] => ([], [])
  | v :: rest =>
    let (ev, v') := toEncoding options v
    let (es, rest') := encodeElems options rest
    (ev :: es, v' :: rest')

/-- The per-entry encoding pass of the Object case of `ToEncoding`:
`keyAsJson.ToEncoding(nestedOption) + ":"/" : " + value->ToEncoding`. -/
def encodeEntries (options : JsonEncodingOptions) :
    List (String × Json) → List String × List (String × Json)
  | [] => ([], [])
  | (k, v) :: rest =>
    let keyEncoding := "\x22" ++ escape options k ++ "\x22"
    let (ev, v') := toEncoding options v
    let (es, rest') := encodeEntries options rest
    ((keyEncoding ++ (if options.pretty then ": " else ":") ++ ev) :: es,
     (k, v') :: rest')

end

/-- Sorted-set insertion, modelling `std::set<std::string>::insert` on
the key set built in the Object case of `Json::operator==`. -/
def keySetInsert : List String → String → List String
  | [], k => [k]
  | k' :: rest, k =>
    if k < k' then k :: k' :: rest
    else if k = k' then k' :: rest
    else k' :: keySetInsert rest k

/-- The key-set phase of the Object case of `Json::operator==`: collect
this value's keys into a `std::set`, check every key of the other value
is present (erasing as it goes), and require that no key is left. -/
def objKeysCheckGo : List String → List (String × Json) → Bool
  | keys, [] => keys.isEmpty
  | keys, (k, _) :: rest =>
    if keys.contains k then objKeysCheckGo (keys.erase k) rest
    else false

/-- Key-set equality check between two Object entry lists, as
`Json::operator==` performs it. -/
def objKeysCheck (entries1 entries2 : List (String × Json)) : Bool :=
  objKeysCheckGo (entries1.foldl (fun s e => keySetInsert s e.1) []) entries2

mutual

/-- `Json::operator==`: structural equality. Different tags are unequal;
Invalid and Null compare equal unconditionally (the cached diagnostic
text is not consulted); payload equality for Boolean / String /
Integer / Float; Arrays compare by equal length and pairwise-equal
elements; Objects compare by equal key sets and then, entry by entry,
by the value mapped under the same key in the other Object. The
per-node encoding cache is never consulted. -/
def jsonEquals : Json → Json → Bool
  | .invalid _, .invalid _ => true
  | .null _, .null _ => true
  | .boolean _ b1, .boolean _ b2 => b1 == b2
  | .str _ s1, .str _ s2 => s1 == s2
  | .integer _ n1, .integer _ n2 => n1 == n2
  | .float _ q1, .float _ q2 => q1 == q2
  | .arr _ elems1, .arr _ elems2 =>
    if elems1.length ≠ elems2.length then false
    else jsonListEquals elems1 elems2
  | .obj _ entries1, .obj _ entries2 =>
    objKeysCheck entries1 entries2 && jsonObjValuesEqual entries1 entries2
  | _, _ => false

/-- The element loop of the Array case of `Json::operator==`; only
reached with equal lengths. -/
def jsonListEquals : List Json → List Json → Bool
  | x :: xs, y :: ys => jsonEquals x y && jsonListEquals xs ys
  | _, _ => true

/-- The value loop of the Object case of `Json::operator==`: for each
entry of this Object, compare with `(*other.objectValue)[key]`. The
`std::map::operator[]` default-construction on a missing key (never
reached after the key-set check) is modelled as a default Invalid
node. -/
def jsonObjValuesEqual : List (String × Json) → List (String × Json) → Bool
  | [], _ => true
  | (k, v) :: rest, other =>
    jsonEquals v ((mapLookup other k).getD (.invalid "")) &&
      jsonObjValuesEqual rest other

end

mutual

/-- `Json::Impl::CopyFrom` (through the `Json` copy constructor, as
`std::make_shared<Json>(value)` performs it on every mutation): a deep
copy of tag and payload into a fresh `Impl`, whose encoding cache — at
every node of the copied tree — starts out empty. -/
def jsonCopy : Json → Json
  | .invalid _ => .invalid ""
  | .null _ => .null ""
  | .boolean _ b => .boolean "" b
  | .str _ s => .str "" s
  | .integer _ n => .integer "" n
  | .float _ q => .float "" q
  | .arr _ elems => .arr "" (jsonCopyList elems)
  | .obj _ entries => .obj "" (jsonCopyEntries entries)

/-- Child copies in `CopyFrom`'s Array case. -/
def jsonCopyList : List Json → List Json
  | [] => []
  | v :: rest => jsonCopy v :: jsonCopyList rest

/-- Child copies in `CopyFrom`'s Object case. -/
def jsonCopyEntries : List (String × Json) → List (String × Json)
  | [] => []
  | (k, v) :: rest => (k, jsonCopy v) :: jsonCopyEntries rest

end

/-- `std::vector::insert` at a position. -/
def insertAtIdx : List Json → Nat → Json → List Json
  | l, 0, x => x :: l
  | [], _ + 1, x => [x]
  | y :: rest, n + 1, x => y :: insertAtIdx rest n x

/-- `Json::Insert`: no-op on a non-Array; otherwise deep-copy the value
into position `min(index, size)`. The encoding cache is NOT cleared
(the source carries a `TODO: clear the encoding` comment instead). -/
def jsonInsert (j value : Json) (index : Nat) : Json :=
  match j with
  | .arr enc elems =>
    .arr enc (insertAtIdx elems (min index elems.length) (jsonCopy value))
  | _ => j

/-- `Json::Add`: no-op on a non-Array; otherwise `Insert(value, size)`. -/
def jsonAdd (j value : Json) : Json :=
  match j with
  | .arr _ elems => jsonInsert j value elems.length
  | _ => j

/-- `Json::Set`: no-op on a non-Object; otherwise deep-copy the value
into the map under `key`. The encoding cache is NOT cleared (the source
carries a `TODO: clear the encoding` comment instead). -/
def jsonSet (j : Json) (key : String) (value : Json) : Json :=
  match j with
  | .obj enc entries => .obj enc (mapInsert entries key (jsonCopy value))
  | _ => j

/-- `std::map::erase` of a key on the entry list. -/
def eraseEntry : List (String × Json) → String → List (String × Json)
  | [], _ => []
  | (k', v') :: rest, k =>
    if k' = k then rest else (k', v') :: eraseEntry rest k

/-- `Json::Remove(key)`: no-op on a non-Object; otherwise erase the
entry. The encoding cache is NOT cleared (`TODO` in the source). -/
def jsonRemoveKey (j : Json) (key : String) : Json :=
  match j with
  | .obj enc entries => .obj enc (eraseEntry entries key)
  | _ => j

/-- `Json::Remove(index)`: no-op on a non-Array or out-of-range index;
otherwise erase the element. The encoding cache is NOT cleared (`TODO`
in the source). -/
def jsonRemoveIdx (j : Json) (index : Nat) : Json :=
  match j with
  | .arr enc elems =>
    if index < elems.length then .arr enc (elems.eraseIdx index) else j
  | _ => j

/-- `Json::operator[](size_t)`: the shared pointer to the child at
`index`, or the null shared pointer (`none`) when the value is not an
Array or the index is out of bounds. -/
def jsonIndex (j : Json) (index : Nat) : Option Json :=
  match j with
  | .arr _ elems =>
    if index ≥ elems.length then none else elems.get? index
  | _ => none

/-- `Json::operator[](const std::string&)`: the shared pointer to the
child under `key`, or the null shared pointer (`none`) when the value
is not an Object or the key is absent. -/
def jsonKey (j : Json) (key : String) : Option Json :=
  match j with
  | .obj _ entries => mapLookup entries key
  | _ => none

/-- `Json::Has`: Object membership test, false for non-Objects. -/
def jsonHas (j : Json) (key : String) : Bool :=
  match j with
  | .obj _ entries => (mapLookup entries key).isSome
  | _ => false

/-- C1: the round-trip law `FromEncoding(ToEncoding(v)) == v` FAILS on
the source for the programmatically built value
`Array[Object{"x":1,"y":2}]`: its encoding is `[{"x":1,"y":2}]`, but
re-parsing splits the outer array body at the comma INSIDE the inner
object (`ParseValue` pushes no closing delimiter for `{`), producing an
array of two Invalid elements, which is not equal to the original. -/
theorem c1_roundTrip_fails_on_nested_object :
    (toEncoding defaultOptions
      (Json.arr "" [Json.obj "" [("x", Json.integer "" 1), ("y", Json.integer "" 2)]])).fst
      = "[\x7b\"x\":1,\"y\":2\x7d]" ∧
    (fromEncoding 30 "[\x7b\"x\":1,\"y\":2\x7d]".data).map
      (fun w => jsonEquals w
        (Json.arr "" [Json.obj "" [("x", Json.integer "" 1), ("y", Json.integer "" 2)]]))
      = some false ∧
    (fromEncoding 30 "[\x7b\"x\":1,\"y\":2\x7d]".data).map
      (fun w => (w.typeOf, w.getSize,
        (jsonIndex w 0).map Json.typeOf, (jsonIndex w 1).map Json.typeOf))
      = some (.array, 2, some .invalid, some .invalid) := by
  refine ⟨by decide, by decide, by decide⟩

/-- C2: none of the structural mutators clears the encoding cache (the
source leaves `TODO: clear the encoding` comments instead), so a
`ToEncoding` call after a mutation returns the stale cached text: after
caching `[42]` for the one-element array `[42]` and then adding `43`,
`ToEncoding` still returns `[42]` although the array has two
elements. -/
theorem c2_mutators_do_not_clear_cache :
    (∀ j value index, (jsonInsert j value index).encoding = j.encoding) ∧
    (∀ j value, (jsonAdd j value).encoding = j.encoding) ∧
    (∀ j key value, (jsonSet j key value).encoding = j.encoding) ∧
    (∀ j key, (jsonRemoveKey j key).encoding = j.encoding) ∧
    (∀ j index, (jsonRemoveIdx j index).encoding = j.encoding) ∧
    (toEncoding defaultOptions
        (jsonAdd (toEncoding defaultOptions (Json.arr "" [Json.integer "" 42])).snd
          (Json.integer "" 43))).fst = "[42]" ∧
    (jsonAdd (toEncoding defaultOptions (Json.arr "" [Json.integer "" 42])).snd
        (Json.integer "" 43)).getSize = 2 := by
  refine ⟨?_, ?_, ?_, ?_, ?_, by decide, by decide⟩
  · intro j value index; cases j <;> rfl
  · intro j value; cases j <;> rfl
  · intro j key value; cases j <;> rfl
  · intro j key; cases j <;> rfl
  · intro j index
    cases j <;> first
      | rfl
      | (simp only [jsonRemoveIdx]; split <;> rfl)

/-- C4: in the top-level splitter `ParseValue`, a quote pushes a closing
quote and `[` pushes `]` (so a comma nested in quotes or brackets does
not split), but NOTHING is pushed for `{`: the comma inside the inner
object of `{"x":1,"y":2}` splits the scan, returning the fragment
`{"x":1` instead of the whole object. -/
theorem c4_brace_pushes_no_closing_delimiter :
    parseValue "\x7b\"x\":1,\"y\":2\x7d".data 0 ',' = ("\x7b\"x\":1".data, some 7) ∧
    parseValue "[1,2],3".data 0 ',' = ("[1,2]".data, some 6) ∧
    parseValue "\"a,b\",c".data 0 ',' = ("\"a,b\"".data, some 6) := by
  refine ⟨by decide, by decide, by decide⟩

/-- C5: `ParseFloatingPoint` multiplies the final value by `-1` when the
EXPONENT sign is negative (the `negativeMagnitude` flag is never
consulted): `5.3e-4` parses to the NEGATIVE value -5.3e-4, while
`5.03e+14` and `5E+0` (non-negative exponents) come out positive, and
`-1.5` loses its sign. (The `double` arithmetic is modelled as exact
rational arithmetic; the sign of the result is unaffected by
rounding.) -/
theorem c5_float_sign_taken_from_exponent :
    parseFloatingPoint "5.3e-4".data = some (-(53 / 100000 : ℚ)) ∧
    parseFloatingPoint "5.03e+14".data = some ((503 : ℚ) * 10 ^ 12) ∧
    parseFloatingPoint "5E+0".data = some (5 : ℚ) ∧
    parseFloatingPoint "-1.5".data = some ((3 : ℚ) / 2) := by
  refine ⟨?_, ?_, ?_, ?_⟩ <;> with_unfolding_all rfl

/-- C6: the three unterminated-structure inputs of the spec parse to a
top-level Invalid value: the missing close bracket and the unterminated
string leave a last code point that selects no container branch and
fail the number grammars, and the mismatched nesting makes
`ParseAsObject` bail out on a non-String key. -/
theorem c6_unterminated_structures_parse_invalid :
    (fromEncoding 50 "[1, \"Hello\", true".data).map Json.typeOf
      = some JType.invalid ∧
    (fromEncoding 150 "\x7b \"value\": 1, \"array\": [42, 57, \"flag\": true \x7d".data).map
      Json.typeOf = some JType.invalid ∧
    (fromEncoding 50 "[1,\"Hello, true".data).map Json.typeOf
      = some JType.invalid := by
  refine ⟨by decide, by decide, by decide⟩

/-- On the array body `"abc` (an unterminated string), `ParseValue` ends
its scan with a non-empty delimiter stack, so it returns an empty piece
and LEAVES the offset unchanged; `ParseAsArray` therefore loops forever
at offset 0, appending an Invalid element per iteration: the loop is
stuck for every amount of fuel. -/
theorem parseAsArrayGo_unterminated_stuck :
    ∀ fuel acc, parseAsArrayGo fuel "\"abc".data 0 acc = ParseOutcome.outOfFuel := by
  intro fuel
  induction fuel with
  | zero => intro acc; rfl
  | succ n ih =>
    intro acc
    rw [parseAsArrayGo]
    have hlen : (0 : Nat) < ("\"abc".data).length := by decide
    rw [if_pos hlen]
    have hpv : parseValue "\"abc".data 0 ',' = ([], some 0) := by decide
    rw [hpv]
    cases n with
    | zero => rfl
    | succ m => exact ih (acc ++ [Json.invalid ""])

/-- C3: `FromEncoding` does NOT terminate on every input: on
`["abc]` (an unterminated string nested in an array body) the
computation is unfinished for EVERY amount of fuel — the source loops
forever, because `ParseValue` leaves the offset unchanged on an
unterminated member and `ParseAsArray` never advances. -/
theorem c3_fromEncoding_diverges_on_unterminated_string :
    ∀ fuel, fromEncoding fuel "[\"abc]".data = none := by
  intro fuel
  cases fuel with
  | zero => rfl
  | succ n =>
    rw [fromEncoding]
    have hne : ¬ (findFirstNotOf "[\"abc]".data true = ("[\"abc]".data).length) := by
      decide
    rw [if_neg hne]
    have ht : trimCps "[\"abc]".data = "[\"abc]".data := by decide
    simp only [ht]
    have hc1 : ¬ (("[\"abc]".data).head? = some '\x7b' ∧
        ("[\"abc]".data).getLast? = some '\x7d') := by decide
    rw [if_neg hc1]
    have hc2 : ("[\"abc]".data).head? = some '[' ∧
        ("[\"abc]".data).getLast? = some ']' := by decide
    rw [if_pos hc2]
    have hbody : (("[\"abc]".data).drop 1).dropLast = "\"abc".data := by decide
    rw [hbody, parseAsArrayGo_unterminated_stuck n []]

/-- C9 counterexample: indexing the one-element array `[42]` at the
out-of-bounds index 1 does NOT produce a Value of type Null (it
produces no Value at all: the source returns the null
`std::shared_ptr`). -/
theorem c9_counterexample_index_miss_not_null_value :
    ¬ ((jsonIndex (Json.arr "" [Json.integer "" 42]) 1).map Json.typeOf
        = some JType.null) := by decide

/-- C9 amended: `operator[]` with an out-of-bounds index, an absent key,
or a non-Array/non-Object tag returns the null shared pointer — no
Value at all, rather than a null-like sentinel Value — and an in-range
index returns the stored child. -/
theorem c9_index_miss_returns_null_pointer :
    (∀ enc elems index, elems.length ≤ index →
      jsonIndex (Json.arr enc elems) index = none) ∧
    (∀ j index, j.typeOf ≠ JType.array → jsonIndex j index = none) ∧
    (∀ enc entries key, mapLookup entries key = none →
      jsonKey (Json.obj enc entries) key = none) ∧
    (∀ j key, j.typeOf ≠ JType.object → jsonKey j key = none) ∧
    (∀ enc elems index, index < elems.length →
      jsonIndex (Json.arr enc elems) index = elems.get? index) := by
  refine ⟨?_, ?_, ?_, ?_, ?_⟩
  · intro enc elems index h
    simp only [jsonIndex, ge_iff_le]
    rw [if_pos h]
  · intro j index h
    cases j <;> simp_all [jsonIndex, Json.typeOf]
  · intro enc entries key h
    simp [jsonKey, h]
  · intro j key h
    cases j <;> simp_all [jsonKey, Json.typeOf]
  · intro enc elems index h
    simp only [jsonIndex, ge_iff_le]
    rw [if_neg (by omega)]

/-- Witness for the C9 amended theorem at a concrete input. -/
theorem c9_index_miss_returns_null_pointer_witness :
    jsonIndex (Json.arr "" [Json.integer "" 42]) 1 = none :=
  c9_index_miss_returns_null_pointer.1 "" [Json.integer "" 42] 1 (by decide)

/-- A non-empty code-point list makes a non-empty string. -/
theorem stringMkNeEmpty (l : List Char) (h : l ≠ []) : String.mk l ≠ "" := by
  intro he
  have hd := congrArg String.data he
  simp only [String.data] at hd
  exact h hd

/-- Every successful `FromEncoding` result that is not Invalid carries
the whitespace-trimmed input text in its encoding cache, and that text
is non-empty: every branch of `FromEncoding` stores
`String.mk (trimCps cps)` in `impl_->encoding` before dispatching, and
each non-Invalid branch requires a non-empty trimmed text. -/
theorem fromEncoding_encoding_eq (fuel : Nat) (cps : List Char) (v : Json)
    (h : fromEncoding (fuel + 1) cps = some v)
    (hty : v.typeOf ≠ JType.invalid) :
    v.encoding = String.mk (trimCps cps) ∧ trimCps cps ≠ [] := by
  simp only [fromEncoding] at h
  split at h
  · cases h
    simp [Json.typeOf] at hty
  · split at h
    case isTrue hcond =>
      split at h
      · exact absurd h (by simp)
      · cases h; simp [Json.typeOf] at hty
      · cases h
        refine ⟨rfl, fun hnil => ?_⟩
        rw [hnil] at hcond
        simp at hcond
    case isFalse =>
      split at h
      case isTrue hcond =>
        split at h
        · exact absurd h (by simp)
        · cases h; simp [Json.typeOf] at hty
        · cases h
          refine ⟨rfl, fun hnil => ?_⟩
          rw [hnil] at hcond
          simp at hcond
      case isFalse =>
        split at h
        case isTrue hcond =>
          split at h
          · cases h
            refine ⟨rfl, fun hnil => ?_⟩
            rw [hnil] at hcond
            simp at hcond
          · cases h; simp [Json.typeOf] at hty
        case isFalse =>
          split at h
          case isTrue hcond =>
            cases h
            refine ⟨rfl, fun hnil => ?_⟩
            rw [hnil] at hcond
            exact absurd hcond (by decide)
          case isFalse =>
            split at h
            case isTrue hcond =>
              cases h
              refine ⟨rfl, fun hnil => ?_⟩
              rw [hnil] at hcond
              exact absurd hcond (by decide)
            case isFalse =>
              split at h
              case isTrue hcond =>
                cases h
                refine ⟨rfl, fun hnil => ?_⟩
                rw [hnil] at hcond
                exact absurd hcond (by decide)
              case isFalse =>
                split at h
                · split at h
                  case h_1 q heq =>
                    cases h
                    refine ⟨rfl, fun hnil => ?_⟩
                    rw [hnil] at heq
                    rw [show parseFloatingPoint ([] : List Char) = none from rfl]
                      at heq
                    cases heq
                  case h_2 =>
                    cases h; simp [Json.typeOf] at hty
                · split at h
                  case h_1 n heq =>
                    cases h
                    refine ⟨rfl, fun hnil => ?_⟩
                    rw [hnil] at heq
                    rw [show parseToInteger ([] : List Char) = none from rfl] at heq
                    cases heq
                  case h_2 =>
                    cases h; simp [Json.typeOf] at hty

/-- With default options (`reencode` off), `ToEncoding` on a non-Invalid
value with a non-empty cache returns the cache verbatim. -/
theorem toEncoding_default_returns_cache (v : Json)
    (hty : v.typeOf ≠ JType.invalid) (henc : v.encoding ≠ "") :
    (toEncoding defaultOptions v).fst = v.encoding := by
  cases v <;>
    simp_all [toEncoding, defaultOptions, Json.encoding, Json.typeOf]

/-- C10: `FromEncoding` pre-populates the result's encoding cache with
the whitespace-trimmed input text, so `ToEncoding` with default options
on any successfully parsed (non-Invalid) value returns the trimmed
original text verbatim, not a canonical re-serialization. -/
theorem c10_parse_prepopulates_cache (fuel : Nat) (cps : List Char)
    (v : Json) (h : fromEncoding (fuel + 1) cps = some v)
    (hty : v.typeOf ≠ JType.invalid) :
    (toEncoding defaultOptions v).fst = String.mk (trimCps cps) := by
  obtain ⟨henc, hne⟩ := fromEncoding_encoding_eq fuel cps v h hty
  rw [toEncoding_default_returns_cache v hty (henc ▸ stringMkNeEmpty _ hne),
    henc]

/-- Witness for C10 at the spec example `[31, 7]`: the interior space is
preserved (the result is `[31, 7]`, not the canonical `[31,7]`). -/
theorem c10_parse_prepopulates_cache_witness :
    (toEncoding defaultOptions
      (Json.arr "[31, 7]" [Json.integer "31" 31, Json.integer "7" 7])).fst
      = "[31, 7]" :=
  (c10_parse_prepopulates_cache 9 "[31, 7]".data
    (Json.arr "[31, 7]" [Json.integer "31" 31, Json.integer "7" 7])
    (by rfl) (by decide)).trans (by decide)

/-- The integer grammar as the spec states it, after the optional sign:
either the single digit `0` alone, or a `1`-`9` digit followed by any
number of digits. -/
def specIntGrammarCore : List Char → Bool
  | [] => false
  | c :: rest =>
    if c = '0' then rest.isEmpty
    else ('1' ≤ c && c ≤ '9') && rest.all isDigitCp

/-- The full integer grammar of the spec: an optional leading `-`
followed by the unsigned grammar. -/
def specIntGrammar (cps : List Char) : Bool :=
  if cps.head? = some '-' then specIntGrammarCore cps.tail
  else specIntGrammarCore cps

/-- Decimal value of a digit string, continuing from an accumulator. -/
def specDigitsVal (acc : Int) (l : List Char) : Int :=
  l.foldl (fun a c => a * 10 + digitVal c) acc

/-- The unsigned decimal magnitude of an integer literal. -/
def specIntMagnitude (cps : List Char) : Int :=
  if cps.head? = some '-' then specDigitsVal 0 cps.tail
  else specDigitsVal 0 cps

/-- The signed decimal value of an integer literal. -/
def specIntValue (cps : List Char) : Int :=
  if cps.head? = some '-' then -(specDigitsVal 0 cps.tail)
  else specDigitsVal 0 cps

/-- A decimal digit's value lies in `[0, 9]`. -/
theorem digitValBounds {c : Char} (h : isDigitCp c = true) :
    0 ≤ digitVal c ∧ digitVal c ≤ 9 := by
  simp only [isDigitCp, Bool.and_eq_true, decide_eq_true_eq] at h
  obtain ⟨h1, h2⟩ := h
  have n1 : 48 ≤ c.toNat := h1
  have n2 : c.toNat ≤ 57 := h2
  unfold digitVal
  rw [show '0'.toNat = 48 from rfl]
  omega

/-- A `1`-`9` digit's value lies in `[1, 9]`. -/
theorem digitValBoundsOneNine {c : Char} (h : ('1' ≤ c && c ≤ '9') = true) :
    1 ≤ digitVal c ∧ digitVal c ≤ 9 := by
  simp only [Bool.and_eq_true, decide_eq_true_eq] at h
  obtain ⟨h1, h2⟩ := h
  have n1 : 49 ≤ c.toNat := h1
  have n2 : c.toNat ≤ 57 := h2
  unfold digitVal
  rw [show '0'.toNat = 48 from rfl]
  omega

/-- Accumulating digits never decreases a non-negative accumulator. -/
theorem specDigitsVal_ge (l : List Char) :
    ∀ acc : Int, l.all isDigitCp = true → 0 ≤ acc →
      acc ≤ specDigitsVal acc l := by
  induction l with
  | nil => intro acc _ _; exact le_refl acc
  | cons c rest ih =>
    intro acc hall hacc
    simp only [List.all_cons, Bool.and_eq_true] at hall
    obtain ⟨hc, hrest⟩ := hall
    obtain ⟨hd0, _⟩ := digitValBounds hc
    have hstep : specDigitsVal acc (c :: rest)
        = specDigitsVal (acc * 10 + digitVal c) rest := rfl
    rw [hstep]
    have h1 : acc ≤ acc * 10 + digitVal c := by omega
    exact le_trans h1 (ih _ hrest (by omega))

/-- Truncated division by 10 undoes appending a digit, on non-negative
values. -/
theorem tdivTenOfNonneg (v d : Int) (h1 : 0 ≤ v) (h2 : 0 ≤ d) (h3 : d < 10) :
    (v * 10 + d).tdiv 10 = v := by
  lift v to Nat using h1
  lift d to Nat using h2
  have he : ((v : Int) * 10 + d) = Int.ofNat (v * 10 + d) := by
    simp [Int.ofNat_eq_natCast]
  rw [he, show (10 : Int) = Int.ofNat 10 from rfl,
    show (Int.ofNat (v * 10 + d)).tdiv (Int.ofNat 10)
      = Int.ofNat ((v * 10 + d) / 10) from rfl]
  have hd : d < 10 := by exact_mod_cast h3
  have hq : (v * 10 + d) / 10 = v := by omega
  rw [hq]
  simp [Int.ofNat_eq_natCast]

/-- The digit loop of `ParseToInteger` accepts only digit strings. -/
theorem parseIntLoop_all_digits :
    ∀ (l : List Char) (v w : Int), parseIntLoop l v = some w →
      l.all isDigitCp = true := by
  intro l
  induction l with
  | nil => intro v w _; rfl
  | cons c rest ih =>
    intro v w h
    simp only [parseIntLoop] at h
    by_cases hd : isDigitCp c = true
    · rw [if_pos hd] at h
      simp only [List.all_cons, hd, Bool.true_and]
      split at h
      · cases h
      · exact ih _ _ h
    · rw [if_neg hd] at h
      cases h

/-- The digit loop of `ParseToInteger` accepts every digit string whose
final value fits below `2^31` (so no wrap-around occurs and the
truncated-division check passes at every step), and computes its decimal
value. -/
theorem parseIntLoop_complete :
    ∀ (l : List Char) (v : Int), l.all isDigitCp = true → 0 ≤ v →
      specDigitsVal v l < 2 ^ 31 → parseIntLoop l v = some (specDigitsVal v l) := by
  intro l
  induction l with
  | nil => intro v _ _ _; rfl
  | cons c rest ih =>
    intro v hall hv hbound
    simp only [List.all_cons, Bool.and_eq_true] at hall
    obtain ⟨hc, hrest⟩ := hall
    obtain ⟨hd0, hd9⟩ := digitValBounds hc
    have hstep : specDigitsVal v (c :: rest)
        = specDigitsVal (v * 10 + digitVal c) rest := rfl
    rw [hstep] at hbound
    have hacc0 : 0 ≤ v * 10 + digitVal c := by omega
    have hge : v * 10 + digitVal c ≤ specDigitsVal (v * 10 + digitVal c) rest :=
      specDigitsVal_ge rest _ hrest hacc0
    have hwrap : wrap32 (v * 10 + digitVal c) = v * 10 + digitVal c := by
      unfold wrap32; omega
    have htd : (v * 10 + digitVal c).tdiv 10 = v :=
      tdivTenOfNonneg v _ hv hd0 (by omega)
    simp only [parseIntLoop, hc, if_true, hwrap, htd, ne_eq,
      not_true_eq_false, if_false]
    rw [hstep]
    exact ih _ hrest hacc0 hbound

/-- The unsigned integer parser accepts only grammar strings. -/
theorem parseToIntegerMagnitude_sound :
    ∀ (l : List Char) (v : Int), parseToIntegerMagnitude l = some v →
      specIntGrammarCore l = true := by
  intro l v h
  cases l with
  | nil => cases h
  | cons c rest =>
    simp only [parseToIntegerMagnitude] at h
    simp only [specIntGrammarCore]
    by_cases hc : c = '0'
    · rw [if_pos hc] at h
      rw [if_pos hc]
      split at h
      next h1 => exact h1
      next => cases h
    · rw [if_neg hc] at h
      rw [if_neg hc]
      by_cases h19 : ('1' ≤ c && c ≤ '9') = true
      · rw [if_pos h19] at h
        rw [h19, Bool.true_and]
        exact parseIntLoop_all_digits rest _ _ h
      · rw [if_neg h19] at h
        cases h

/-- The unsigned integer parser accepts every grammar string whose value
fits below `2^31`, computing its decimal value. -/
theorem parseToIntegerMagnitude_complete :
    ∀ l : List Char, specIntGrammarCore l = true →
      specDigitsVal 0 l < 2 ^ 31 →
      parseToIntegerMagnitude l = some (specDigitsVal 0 l) := by
  intro l hg hb
  cases l with
  | nil => cases hg
  | cons c rest =>
    simp only [specIntGrammarCore] at hg
    simp only [parseToIntegerMagnitude]
    by_cases hc : c = '0'
    · rw [if_pos hc] at hg
      rw [if_pos hc, if_pos hg]
      subst hc
      have : rest = [] := by
        cases rest with
        | nil => rfl
        | cons a b => cases hg
      subst this
      decide
    · rw [if_neg hc] at hg
      rw [if_neg hc]
      simp only [Bool.and_eq_true] at hg
      obtain ⟨h19, hrest⟩ := hg
      have h19b : ('1' ≤ c && c ≤ '9') = true := by
        simp only [Bool.and_eq_true]; exact h19
      rw [if_pos h19b]
      obtain ⟨hd1, hd9⟩ := digitValBoundsOneNine h19b
      have hzero : specDigitsVal 0 (c :: rest)
          = specDigitsVal (digitVal c) rest := by
        show specDigitsVal ((0 : Int) * 10 + digitVal c) rest = _
        norm_num
      rw [hzero] at hb ⊢
      exact parseIntLoop_complete rest (digitVal c) hrest (by omega) hb

/-- C7: the integer grammar. (a) Whatever `ParseToInteger` accepts
matches the grammar `-?(0|[1-9][0-9]*)`; (b) it accepts every grammar
string whose magnitude fits below `2^31` (the width of the `int`
accumulator), computing the signed decimal value; and (c) through
`FromEncoding`: `"0"` parses to Integer 0, `"-242"` to Integer -242,
while `"00"`, `"0025"`, `"-0025"` and 58 nines (overflowing the
accumulator, caught by the truncation check) parse to Invalid. -/
theorem c7_integer_grammar :
    (∀ (cps : List Char) (n : Int), parseToInteger cps = some n →
      specIntGrammar cps = true) ∧
    (∀ cps : List Char, specIntGrammar cps = true →
      specIntMagnitude cps < 2 ^ 31 →
      parseToInteger cps = some (specIntValue cps)) ∧
    (fromEncoding 2 "0".data).map (fun v => (v.typeOf, v.asInt))
      = some (JType.integer, 0) ∧
    (fromEncoding 2 "-242".data).map (fun v => (v.typeOf, v.asInt))
      = some (JType.integer, -242) ∧
    (fromEncoding 2 "00".data).map Json.typeOf = some JType.invalid ∧
    (fromEncoding 2 "0025".data).map Json.typeOf = some JType.invalid ∧
    (fromEncoding 2 "-0025".data).map Json.typeOf = some JType.invalid ∧
    (fromEncoding 2 (List.replicate 58 '9')).map Json.typeOf
      = some JType.invalid := by
  refine ⟨?_, ?_, by decide, by decide, by decide, by decide, by decide,
    by decide⟩
  · intro cps n h
    simp only [parseToInteger] at h
    simp only [specIntGrammar]
    by_cases hm : cps.head? = some '-'
    · rw [if_pos hm] at h
      rw [if_pos hm]
      obtain ⟨v, hv, _⟩ := Option.map_eq_some'.mp h
      exact parseToIntegerMagnitude_sound _ _ hv
    · rw [if_neg hm] at h
      rw [if_neg hm]
      obtain ⟨v, hv, _⟩ := Option.map_eq_some'.mp h
      exact parseToIntegerMagnitude_sound _ _ hv
  · intro cps hg hb
    simp only [specIntGrammar] at hg
    simp only [specIntMagnitude] at hb
    simp only [parseToInteger, specIntValue]
    by_cases hm : cps.head? = some '-'
    · rw [if_pos hm] at hg hb ⊢
      rw [if_pos hm]
      rw [parseToIntegerMagnitude_complete _ hg hb]
      simp only [Option.map_some']
      congr 1
      ring
    · rw [if_neg hm] at hg hb ⊢
      rw [if_neg hm]
      rw [parseToIntegerMagnitude_complete _ hg hb]
      simp only [Option.map_some']
      congr 1
      ring

/-- Witness for C7, applying the completeness direction at `-242`. -/
theorem c7_integer_grammar_witness :
    parseToInteger "-242".data = some (-242) := by
  have h := c7_integer_grammar.2.1 "-242".data (by decide) (by decide)
  rw [h]
  decide

/-- Deep copy preserves list length. -/
theorem jsonCopyList_length : ∀ xs : List Json,
    (jsonCopyList xs).length = xs.length
  | [] => rfl
  | _ :: xs => by
    show (jsonCopyList xs).length + 1 = _
    rw [jsonCopyList_length xs]
    rfl

/-- Deep copy preserves Object keys. -/
theorem jsonCopyEntries_keys : ∀ xs : List (String × Json),
    (jsonCopyEntries xs).map Prod.fst = xs.map Prod.fst
  | [] => rfl
  | (k, v) :: xs => by
    show k :: (jsonCopyEntries xs).map Prod.fst = _
    rw [jsonCopyEntries_keys xs]
    rfl

/-- Looking up in a deep-copied entry list finds the copied value. -/
theorem mapLookup_copyEntries : ∀ (ys : List (String × Json)) (k : String),
    mapLookup (jsonCopyEntries ys) k = (mapLookup ys k).map jsonCopy := by
  intro ys
  induction ys with
  | nil => intro k; rfl
  | cons e rest ih =>
    intro k
    obtain ⟨k', v'⟩ := e
    show (if k = k' then some (jsonCopy v') else mapLookup (jsonCopyEntries rest) k) = _
    by_cases h : k = k' <;> simp [mapLookup, h, ih]

/-- The key-set scan ignores the (copied) values. -/
theorem objKeysCheckGo_copyEntries :
    ∀ (ys : List (String × Json)) (keys : List String),
      objKeysCheckGo keys (jsonCopyEntries ys) = objKeysCheckGo keys ys := by
  intro ys
  induction ys with
  | nil => intro keys; rfl
  | cons e rest ih =>
    intro keys
    obtain ⟨k, v⟩ := e
    show objKeysCheckGo keys ((k, jsonCopy v) :: jsonCopyEntries rest) = _
    simp only [objKeysCheckGo]
    rw [ih]

/-- Building the key set ignores the (copied) values. -/
theorem buildKeySet_copyEntries :
    ∀ (xs : List (String × Json)) (s : List String),
      List.foldl (fun s e => keySetInsert s e.1) s (jsonCopyEntries xs)
        = List.foldl (fun s e => keySetInsert s e.1) s xs := by
  intro xs
  induction xs with
  | nil => intro s; rfl
  | cons e rest ih =>
    intro s
    obtain ⟨k, v⟩ := e
    show List.foldl _ (keySetInsert s k) (jsonCopyEntries rest) = _
    rw [ih]
    rfl

/-- The key-set phase of `operator==` is unchanged by deep copies. -/
theorem objKeysCheck_copy (xs ys : List (String × Json)) :
    objKeysCheck (jsonCopyEntries xs) (jsonCopyEntries ys)
      = objKeysCheck xs ys := by
  unfold objKeysCheck
  rw [objKeysCheckGo_copyEntries, buildKeySet_copyEntries]

mutual

/-- Structural equality only looks at tags and payloads, never at the
per-node encoding caches: two deep copies (which reset every cache)
compare exactly as the originals do. -/
theorem jsonEquals_copy : ∀ a b : Json,
    jsonEquals (jsonCopy a) (jsonCopy b) = jsonEquals a b
  | .invalid _, b => by cases b <;> rfl
  | .null _, b => by cases b <;> rfl
  | .boolean _ _, b => by cases b <;> rfl
  | .str _ _, b => by cases b <;> rfl
  | .integer _ _, b => by cases b <;> rfl
  | .float _ _, b => by cases b <;> rfl
  | .arr e xs, b => by
    cases b <;> try rfl
    case arr e2 ys =>
      show jsonEquals (.arr "" (jsonCopyList xs)) (.arr "" (jsonCopyList ys))
        = jsonEquals (.arr e xs) (.arr e2 ys)
      simp only [jsonEquals]
      rw [jsonCopyList_length xs, jsonCopyList_length ys,
        jsonListEquals_copy xs ys]
  | .obj e xs, b => by
    cases b <;> try rfl
    case obj e2 ys =>
      show jsonEquals (.obj "" (jsonCopyEntries xs)) (.obj "" (jsonCopyEntries ys))
        = jsonEquals (.obj e xs) (.obj e2 ys)
      simp only [jsonEquals]
      rw [objKeysCheck_copy xs ys, jsonObjValuesEqual_copy xs ys]

/-- Element-wise version of `jsonEquals_copy`. -/
theorem jsonListEquals_copy : ∀ xs ys : List Json,
    jsonListEquals (jsonCopyList xs) (jsonCopyList ys) = jsonListEquals xs ys
  | [], ys => by cases ys <;> rfl
  | _ :: _, [] => rfl
  | x :: xs, y :: ys => by
    show (jsonEquals (jsonCopy x) (jsonCopy y)
        && jsonListEquals (jsonCopyList xs) (jsonCopyList ys)) = _
    rw [jsonEquals_copy x y, jsonListEquals_copy xs ys]
    rfl

/-- Entry-wise version of `jsonEquals_copy`. -/
theorem jsonObjValuesEqual_copy : ∀ xs ys : List (String × Json),
    jsonObjValuesEqual (jsonCopyEntries xs) (jsonCopyEntries ys)
      = jsonObjValuesEqual xs ys
  | [], _ => rfl
  | (k, v) :: xs, ys => by
    have hL : jsonObjValuesEqual (jsonCopyEntries ((k, v) :: xs))
        (jsonCopyEntries ys)
        = (jsonEquals (jsonCopy v)
            ((mapLookup (jsonCopyEntries ys) k).getD (.invalid ""))
          && jsonObjValuesEqual (jsonCopyEntries xs) (jsonCopyEntries ys)) :=
      rfl
    have hR : jsonObjValuesEqual ((k, v) :: xs) ys
        = (jsonEquals v ((mapLookup ys k).getD (.invalid ""))
          && jsonObjValuesEqual xs ys) := rfl
    rw [hL, hR, mapLookup_copyEntries ys k, jsonObjValuesEqual_copy xs ys]
    cases mapLookup ys k with
    | none =>
      simp only [Option.map_none', Option.getD_none]
      rw [show jsonEquals (jsonCopy v) (Json.invalid "")
          = jsonEquals v (Json.invalid "") from jsonEquals_copy v (.invalid "")]
    | some w =>
      simp only [Option.map_some', Option.getD_some]
      rw [jsonEquals_copy v w]

end

/-- The Array-element loop of `operator==` compares pairwise, in
order. -/
theorem jsonListEquals_eq_zip : ∀ xs ys : List Json,
    jsonListEquals xs ys = ((xs.zip ys).all fun p => jsonEquals p.1 p.2) := by
  intro xs
  induction xs with
  | nil => intro ys; cases ys <;> rfl
  | cons x xs ih =>
    intro ys
    cases ys with
    | nil => rfl
    | cons y ys =>
      show (jsonEquals x y && jsonListEquals xs ys) = _
      rw [ih ys]
      rfl

/-- Inserting a key greater than everything in a sorted set appends
it. -/
theorem keySetInsert_of_gt : ∀ (s : List String) (k : String),
    (∀ x ∈ s, x < k) → keySetInsert s k = s ++ [k] := by
  intro s
  induction s with
  | nil => intro k _; rfl
  | cons k1 rest ih =>
    intro k h
    have h1 : k1 < k := h k1 (List.mem_cons_self _ _)
    show (if k < k1 then k :: k1 :: rest
      else if k = k1 then k1 :: rest else k1 :: keySetInsert rest k) = _
    rw [if_neg (lt_asymm h1), if_neg (ne_of_gt h1),
      ih k (fun x hx => h x (List.mem_cons_of_mem _ hx))]
    rfl

/-- Folding a strictly sorted list into a sorted set reproduces the
list. -/
theorem foldl_keySetInsert_sorted : ∀ l s : List String,
    List.Pairwise (· < ·) (s ++ l) → List.foldl keySetInsert s l = s ++ l := by
  intro l
  induction l with
  | nil => intro s _; simp
  | cons k l2 ih =>
    intro s hp
    have hlt : ∀ x ∈ s, x < k := by
      rw [List.pairwise_append] at hp
      intro x hx
      exact hp.2.2 x hx k (List.mem_cons_self k l2)
    show List.foldl keySetInsert (keySetInsert s k) l2 = s ++ k :: l2
    rw [keySetInsert_of_gt s k hlt]
    have hp2 : List.Pairwise (· < ·) ((s ++ [k]) ++ l2) := by
      rw [List.append_assoc]
      simpa using hp
    rw [ih (s ++ [k]) hp2]
    simp

/-- For a strictly key-sorted Object, the `std::set` of its keys is its
key list. -/
theorem buildKeySet_sorted (xs : List (String × Json))
    (hp : List.Pairwise (fun p q : String × Json => p.1 < q.1) xs) :
    xs.foldl (fun s e => keySetInsert s e.1) [] = xs.map Prod.fst := by
  rw [← List.foldl_map]
  exact foldl_keySetInsert_sorted (xs.map Prod.fst) []
    (by simpa [List.pairwise_map] using hp)

/-- The erase-as-you-go key scan of `operator==` is exactly the
permutation check between the other Object's key list and the key
set. -/
theorem objKeysCheckGo_eq_isPerm :
    ∀ (ys : List (String × Json)) (keys : List String),
      objKeysCheckGo keys ys = (ys.map Prod.fst).isPerm keys := by
  intro ys
  induction ys with
  | nil => intro keys; rfl
  | cons e rest ih =>
    intro keys
    obtain ⟨k, v⟩ := e
    show (if keys.contains k then objKeysCheckGo (keys.erase k) rest else false)
      = (keys.contains k && (rest.map Prod.fst).isPerm (keys.erase k))
    by_cases hc : keys.contains k = true
    · rw [if_pos hc, hc, Bool.true_and, ih]
    · rw [if_neg hc]
      have hf : keys.contains k = false := by
        revert hc; cases keys.contains k <;> simp
      rw [hf, Bool.false_and]

/-- A head entry whose key occurs nowhere in `xs` is skipped by every
lookup the value loop performs. -/
theorem jsonObjValuesEqual_skip_head :
    ∀ (xs : List (String × Json)) (k : String) (w : Json)
      (ys : List (String × Json)), (∀ e ∈ xs, e.1 ≠ k) →
      jsonObjValuesEqual xs ((k, w) :: ys) = jsonObjValuesEqual xs ys := by
  intro xs
  induction xs with
  | nil => intro k w ys _; rfl
  | cons e xs2 ih =>
    intro k w ys h
    obtain ⟨k1, v1⟩ := e
    have hne : k1 ≠ k := h (k1, v1) (List.mem_cons_self _ _)
    show (jsonEquals v1 ((mapLookup ((k, w) :: ys) k1).getD (.invalid ""))
        && jsonObjValuesEqual xs2 ((k, w) :: ys)) = _
    have hml : mapLookup ((k, w) :: ys) k1 = mapLookup ys k1 := by
      show (if k1 = k then some w else mapLookup ys k1) = _
      rw [if_neg hne]
    rw [hml, ih k w ys (fun e he => h e (List.mem_cons_of_mem _ he))]
    rfl

/-- With equal key lists and a strictly sorted left Object, the value
loop of `operator==` compares values pairwise by position. -/
theorem jsonObjValuesEqual_eq_zip :
    ∀ xs ys : List (String × Json), xs.map Prod.fst = ys.map Prod.fst →
      List.Pairwise (fun p q : String × Json => p.1 < q.1) xs →
      jsonObjValuesEqual xs ys
        = (((xs.map Prod.snd).zip (ys.map Prod.snd)).all
            fun p => jsonEquals p.1 p.2) := by
  intro xs
  induction xs with
  | nil => intro ys _ _; rfl
  | cons e xs2 ih =>
    intro ys hkeys hp
    obtain ⟨k, v⟩ := e
    cases ys with
    | nil => simp at hkeys
    | cons e2 ys2 =>
      obtain ⟨k2, w⟩ := e2
      simp only [List.map_cons, List.cons.injEq] at hkeys
      obtain ⟨hk, hkeys2⟩ := hkeys
      subst hk
      rw [List.pairwise_cons] at hp
      obtain ⟨hlt, hp2⟩ := hp
      show (jsonEquals v ((mapLookup ((k, w) :: ys2) k).getD (.invalid ""))
          && jsonObjValuesEqual xs2 ((k, w) :: ys2)) = _
      have hml : mapLookup ((k, w) :: ys2) k = some w := by
        show (if k = k then some w else mapLookup ys2 k) = _
        rw [if_pos rfl]
      rw [hml]
      simp only [Option.getD_some]
      rw [jsonObjValuesEqual_skip_head xs2 k w ys2
        (fun e he => ne_of_gt (hlt e he)), ih ys2 hkeys2 hp2]
      rfl

/-- C8: structural equality. Any two Invalid values compare equal
(whatever diagnostic text their caches hold), any two Null values
compare equal, two Arrays compare equal exactly when they have equal
length and pairwise-equal elements in order, two (key-sorted, as the
`std::map` maintains them) Objects compare equal exactly when they have
the same key list and pairwise-equal values per key, and the encoding
caches never affect equality: deep copies (which clear every cache)
compare exactly as the originals. -/
theorem c8_structural_equality :
    (∀ e1 e2 : String, jsonEquals (.invalid e1) (.invalid e2) = true) ∧
    (∀ e1 e2 : String, jsonEquals (.null e1) (.null e2) = true) ∧
    (∀ (e1 e2 : String) (xs ys : List Json),
      jsonEquals (.arr e1 xs) (.arr e2 ys) = true ↔
        xs.length = ys.length ∧
        ((xs.zip ys).all fun p => jsonEquals p.1 p.2) = true) ∧
    (∀ (e1 e2 : String) (xs ys : List (String × Json)),
      List.Chain' (fun p q => p.1 < q.1) xs →
      List.Chain' (fun p q => p.1 < q.1) ys →
      (jsonEquals (.obj e1 xs) (.obj e2 ys) = true ↔
        xs.map Prod.fst = ys.map Prod.fst ∧
        (((xs.map Prod.snd).zip (ys.map Prod.snd)).all
          fun p => jsonEquals p.1 p.2) = true)) ∧
    (∀ a b : Json, jsonEquals (jsonCopy a) (jsonCopy b) = jsonEquals a b) := by
  haveI : IsTrans (String × Json) (fun p q => p.1 < q.1) :=
    ⟨fun _ _ _ h1 h2 => lt_trans h1 h2⟩
  refine ⟨fun _ _ => rfl, fun _ _ => rfl, ?_, ?_, jsonEquals_copy⟩
  · intro e1 e2 xs ys
    show ((if xs.length ≠ ys.length then false else jsonListEquals xs ys)
      = true) ↔ _
    rw [jsonListEquals_eq_zip]
    by_cases hl : xs.length = ys.length
    · simp [hl]
    · simp [hl]
  · intro e1 e2 xs ys hxs hys
    have hpxs : List.Pairwise (fun p q : String × Json => p.1 < q.1) xs :=
      List.chain'_iff_pairwise.mp hxs
    have hpys : List.Pairwise (fun p q : String × Json => p.1 < q.1) ys :=
      List.chain'_iff_pairwise.mp hys
    have hsxs : List.Sorted (· < ·) (xs.map Prod.fst) := by
      simpa [List.Sorted, List.pairwise_map] using hpxs
    have hsys : List.Sorted (· < ·) (ys.map Prod.fst) := by
      simpa [List.Sorted, List.pairwise_map] using hpys
    haveI : IsAntisymm String (· < ·) :=
      ⟨fun _ _ h1 h2 => (lt_asymm h1 h2).elim⟩
    have hkck : objKeysCheck xs ys
        = (ys.map Prod.fst).isPerm (xs.map Prod.fst) := by
      unfold objKeysCheck
      rw [buildKeySet_sorted xs hpxs, objKeysCheckGo_eq_isPerm]
    show ((objKeysCheck xs ys && jsonObjValuesEqual xs ys) = true) ↔ _
    rw [Bool.and_eq_true]
    constructor
    · rintro ⟨hk, hv⟩
      have hperm : (ys.map Prod.fst).Perm (xs.map Prod.fst) :=
        List.isPerm_iff.mp (hkck ▸ hk)
      have hkeys : xs.map Prod.fst = ys.map Prod.fst :=
        (List.eq_of_perm_of_sorted hperm hsys hsxs).symm
      exact ⟨hkeys, by rw [← jsonObjValuesEqual_eq_zip xs ys hkeys hpxs]; exact hv⟩
    · rintro ⟨hkeys, hv⟩
      refine ⟨?_, ?_⟩
      · rw [hkck]
        exact List.isPerm_iff.mpr (by rw [hkeys])
      · rw [jsonObjValuesEqual_eq_zip xs ys hkeys hpxs]
        exact hv

/-- Witness for C8: two Objects with the same single key but different
node caches compare equal. -/
theorem c8_structural_equality_witness :
    jsonEquals
      (.obj "cachedA" [("a", .integer "42" 42)])
      (.obj "" [("a", .integer "" 42)]) = true := by
  have h := (c8_structural_equality.2.2.2.1 "cachedA" ""
    [("a", Json.integer "42" 42)] [("a", Json.integer "" 42)]
    (List.chain'_singleton _) (List.chain'_singleton _)).mpr
    ⟨by decide, by decide⟩
  exact h

example : parseToInteger "0".data = some 0 := by decide
example : parseToInteger "-242".data = some (-242) := by decide
example : parseToInteger "00".data = none := by decide
example : parseToInteger "0025".data = none := by decide
example : parseToInteger "-0025".data = none := by decide
example : parseToInteger (List.replicate 58 '9') = none := by decide
example : parseFloatingPoint "5.3e-4".data = some (-(53 / 100000 : ℚ)) := by
  with_unfolding_all rfl
example : parseFloatingPoint "5.03e+14".data = some ((503 : ℚ) * 10 ^ 12) := by
  with_unfolding_all rfl
example : parseFloatingPoint "5E+0".data = some 5 := by with_unfolding_all rfl
example : parseFloatingPoint "-1.5".data = some (3 / 2 : ℚ) := by
  with_unfolding_all rfl

end JsonSpec
